import Mathlib

/-!
Shallow embedding of `finglish/f2p.py` (Finglish-to-Persian converter).

Modelling conventions:
- Python strings are `List Char`; ASCII semantics are used for the character
  classes of `re`'s `\w`, `\s` and of `str.isalnum` / `str.isspace`.
- Python float confidences are modelled as exact rationals `ℚ`; the code only
  ever forms the ratios `freq / max_freq` with `0 ≤ freq ≤ max_freq`, so all
  values lie in `[0, 1]` in both models.
- The module-level tables loaded from the resource files (which are data files
  of the repository, not part of the sources) are abstracted into a `Tables`
  structure; theorems quantify over it, and a small concrete instance modelled
  from the spec provides witnesses and counterexamples.
- Python's stable `list.sort(key=..., reverse=True)` is embedded as a stable
  insertion sort by descending confidence (a stable descending sort is unique
  as a function, so this is extensionally faithful).
-/

/-- Character class of Python's regex `\w` (ASCII fragment): letters, digits
and the underscore. -/
def pyIsWordChar (c : Char) : Bool :=
  c.isAlphanum || c = '_'

/-- Character class of Python's `str.isspace` / regex `\s` (ASCII fragment). -/
def pyIsSpace (c : Char) : Bool :=
  c = ' ' || c = '\t' || c = '\n' || c = '\r' || c = '\x0b' || c = '\x0c'

/-- The three token classes of `word_and_punct_regex = \w+|[^\w\s]|\s+`. -/
inductive CharClass where
  | word
  | space
  | punct
deriving DecidableEq

/-- Classify one character for tokenization. -/
def charClass (c : Char) : CharClass :=
  if pyIsWordChar c then .word else if pyIsSpace c then .space else .punct

/-- One step of tokenization: prepend character `c` to a token list, merging
`c` into the following token when that token starts with a character of the
same (non-punctuation) class. -/
def consTok (c : Char) : List (List Char) → List (List Char)
  | (d :: t) :: ts' =>
    if charClass d = charClass c then (c :: d :: t) :: ts'
    else [c] :: (d :: t) :: ts'
  | ts => [c] :: ts

/-- Tokenization performed by `word_and_punct_regex.findall`: maximal runs of
word characters, maximal runs of whitespace, and single punctuation
characters.  The three alternatives of the regex partition all characters, so
`findall` computes exactly this maximal-run grouping; it is computed here by a
structural right fold (merging a character into the following token of the
same class), which yields the same maximal runs as the left-to-right scan. -/
def tokenize : List Char → List (List Char)
  | [] => []
  | c :: cs =>
    if charClass c = .punct then [c] :: tokenize cs
    else consTok c (tokenize cs)

/-- The resource tables of `f2p.py`, loaded at module import from
`f2p-beginning.txt`, `f2p-middle.txt`, `f2p-ending.txt`,
`persian-word-freq.txt` and `f2p-dict.txt`.  The files themselves are data of
the repository, so the tables are abstracted as functions. -/
structure Tables where
  beginning : List Char → Option (List (List Char))
  middle : List Char → Option (List (List Char))
  ending : List Char → Option (List (List Char))
  word_freq : List Char → Nat
  dictionary : List Char → Option (List Char)

/-- Positional table selection of the loop in `f2p_word_internal`: index 0
uses `beginning`, the last index uses `ending`, anything else `middle`. -/
def lookupConv (T : Tables) (i n : Nat) (cluster : List Char) :
    Option (List (List Char)) :=
  (if i = 0 then T.beginning else if i = n - 1 then T.ending else T.middle)
    cluster

/-- The literal table value `nothing` denotes the empty substitution. -/
def mapNothing (conv : List (List Char)) : List (List Char) :=
  conv.map (fun s => if s = "nothing".data then [] else s)

/-- The table-lookup loop of `f2p_word_internal`: builds the per-cluster
substitution lists, or fails (like the early `return`) if any cluster is
absent from its positional table. -/
def buildPersian (T : Tables) (n : Nat) :
    Nat → List (List Char) → Option (List (List (List Char)))
  | _, [] => some []
  | i, c :: cs =>
    match lookupConv T i n c with
    | none => none
    | some conv => (buildPersian T n (i + 1) cs).map (mapNothing conv :: ·)

/-- Cartesian product in the iteration order of `itertools.product`
(leftmost factor varies slowest). -/
def listProd : List (List (List Char)) → List (List (List Char))
  | [] => [[]]
  | l :: ls => l.flatMap (fun x => (listProd ls).map (x :: ·))

/-- Embedding of `f2p_word_internal(word, original_word)`: convert one
segmentation (a list of clusters) into scored Persian alternatives. -/
def f2p_word_internal (T : Tables) (word : List (List Char))
    (original_word : List Char) : List (List Char × ℚ) :=
  match buildPersian T word.length 0 word with
  | none => [(original_word, 0)]
  | some persian =>
    let alternatives := (listProd persian).map List.flatten
    let withFreq := alternatives.map (fun a => (a, T.word_freq a))
    if alternatives.length > 0 then
      let maxFreq := (withFreq.map Prod.snd).foldl Nat.max 0
      withFreq.map (fun p =>
        if p.2 ≠ 0 then (p.1, (p.2 : ℚ) / (maxFreq : ℚ)) else (p.1, 0))
    else [(word.flatten, 1)]

/-- Membership test for the short-vowel lists of `variations`
(`a e o i u A`, used in the apostrophe-adjacent cases). -/
def isShortVowel (c : Char) : Bool :=
  c = 'a' || c = 'e' || c = 'o' || c = 'i' || c = 'u' || c = 'A'

/-- Membership test for the digraph list `['kh','gh','ch','sh','zh','ck']`. -/
def isDigraphPair (c₁ c₂ : Char) : Bool :=
  (c₁ = 'k' && c₂ = 'h') || (c₁ = 'g' && c₂ = 'h') || (c₁ = 'c' && c₂ = 'h') ||
  (c₁ = 's' && c₂ = 'h') || (c₁ = 'z' && c₂ = 'h') || (c₁ = 'c' && c₂ = 'k')

/-- Embedding of `variations(word)`: all segmentations of a word into letter
clusters, with the special cases checked in the source's order.  The branch
conditions are grouped by word length (the source's checks on the whole word
and on its length-2 and length-3 prefixes are mutually exclusive across the
length groups), which lets the recursion be structural. -/
def variations : List Char → List (List (List Char))
  | [] => []
  | [c] => if c = 'a' then [[['A']]] else [[[c]]]
  | [c₁, c₂] =>
    if c₁ = 'a' ∧ c₂ = 'a' then [[['A']]]
    else if c₁ = 'e' ∧ c₂ = 'e' then [[['i']]]
    else if c₁ = 'e' ∧ c₂ = 'i' then [[['e', 'i']]]
    else if c₁ = 'o' ∧ (c₂ = 'o' ∨ c₂ = 'u') then [[['u']]]
    else if isDigraphPair c₁ c₂ then [[[c₁, c₂]]]
    else if c₂ = '\'' ∧ isShortVowel c₁ then [[[c₁, '\'']]]
    else if c₁ = '\'' ∧ isShortVowel c₂ then [[['\'', c₂]]]
    else if c₁ = c₂ then [[[c₁]]]
    else (variations [c₂]).map ([c₁] :: ·)
  | c₁ :: c₂ :: c₃ :: rest =>
    if rest = [] ∧ c₁ = 'k' ∧ c₂ = 'h' ∧ c₃ = 'a' then
      [[['k', 'h', 'a']], [['k', 'h'], ['a']]]
    else if rest = [] ∧ c₁ = '\'' ∧ c₂ = 'e' ∧ (c₃ = 'e' ∨ c₃ = 'i') then
      [[['\'', 'i']]]
    else if rest = [] ∧ c₁ = '\'' ∧ c₂ = 'o' ∧ (c₃ = 'o' ∨ c₃ = 'u') then
      [[['\'', 'u']]]
    else if c₁ = 'a' ∧ c₂ = 'a' then
      (variations (c₃ :: rest)).map (['A'] :: ·)
    else if c₁ = 'e' ∧ c₂ = 'e' then
      (variations (c₃ :: rest)).map (['i'] :: ·)
    else if c₁ = 'o' ∧ (c₂ = 'o' ∨ c₂ = 'u') then
      (variations (c₃ :: rest)).map (['u'] :: ·)
    else if c₁ = 'k' ∧ c₂ = 'h' ∧ c₃ = 'a' then
      (variations rest).map (['k', 'h', 'a'] :: ·) ++
      (variations rest).map (fun i => ['k', 'h'] :: ['a'] :: i) ++
      (variations rest).map (fun i => ['k'] :: ['h'] :: ['a'] :: i)
    else if isDigraphPair c₁ c₂ then
      (variations (c₃ :: rest)).map ([c₁, c₂] :: ·) ++
      (variations (c₂ :: c₃ :: rest)).map ([c₁] :: ·)
    else if c₂ = '\'' ∧ isShortVowel c₁ then
      (variations (c₃ :: rest)).map ([c₁, c₂] :: ·)
    else if c₁ = '\'' ∧ c₂ = 'e' ∧ (c₃ = 'e' ∨ c₃ = 'i') then
      (variations rest).map (['\'', 'i'] :: ·)
    else if c₁ = '\'' ∧ c₂ = 'o' ∧ (c₃ = 'o' ∨ c₃ = 'u') then
      (variations rest).map (['\'', 'u'] :: ·)
    else if c₁ = '\'' ∧ isShortVowel c₂ then
      (variations (c₃ :: rest)).map ([c₁, c₂] :: ·)
    else if c₁ = c₂ then
      (variations (c₃ :: rest)).map ([c₁] :: ·)
    else
      (variations (c₂ :: c₃ :: rest)).map ([c₁] :: ·)

/-- Stable insertion (by non-increasing confidence) used to model Python's
stable `list.sort(key=lambda r: r[1], reverse=True)`. -/
def insertDesc (x : List Char × ℚ) :
    List (List Char × ℚ) → List (List Char × ℚ)
  | [] => [x]
  | y :: ys => if y.2 ≤ x.2 then x :: y :: ys else y :: insertDesc x ys

/-- Stable sort by non-increasing confidence. -/
def sortDesc (l : List (List Char × ℚ)) : List (List Char × ℚ) :=
  l.foldr insertDesc []

/-- Embedding of `f2p_word(word, max_word_size, cutoff)`.  `dictionary.get`
followed by Python's truthiness test `if c:` accepts exactly a present,
non-empty value. -/
def f2p_word (T : Tables) (word : List Char) (max_word_size cutoff : Nat) :
    List (List Char × ℚ) :=
  let original_word := word
  let w := word.map Char.toLower
  let c := (T.dictionary w).getD []
  if c ≠ [] then [(c, 1)]
  else if w = [] then []
  else if w.length > max_word_size then [(original_word, 1)]
  else
    (sortDesc ((variations w).flatMap
      (fun s => f2p_word_internal T s original_word))).take cutoff

/-- Rewriting of `?` and `,` to their Persian equivalents in the punctuation
branch of `f2p_list`. -/
def punct_map (token : List Char) : List Char :=
  if token = ['?'] then ['؟'] else if token = [','] then ['،'] else token

/-- Loop body of `f2p_list`: `token.isspace()` and `token.isalnum()` are
non-emptiness plus the pointwise ASCII class checks. -/
def convert_token (T : Tables) (max_word_size cutoff : Nat)
    (token : List Char) : List (List Char × ℚ) :=
  if token ≠ [] ∧ token.all pyIsSpace then [(token, 1)]
  else if token ≠ [] ∧ token.all Char.isAlphanum then
    f2p_word T token max_word_size cutoff
  else [(punct_map token, 1)]

/-- Embedding of `f2p_list(phrase, max_word_size, cutoff)`. -/
def f2p_list (T : Tables) (phrase : List Char) (max_word_size cutoff : Nat) :
    List (List (List Char × ℚ)) :=
  (tokenize phrase).map (convert_token T max_word_size cutoff)

/-- The selection loop of `f2p`: take `i[0][0]` of every token result.  The
Python indexing `i[0]` raises `IndexError` on an empty candidate list, which
is modelled by `Option`. -/
def firstTexts : List (List (List Char × ℚ)) → Option (List (List Char))
  | [] => some []
  | i :: rest =>
    match i with
    | [] => none
    | x :: _ => (firstTexts rest).map (x.1 :: ·)

/-- Embedding of `f2p(phrase, max_word_size, cutoff)`; `none` models the
`IndexError` raised when some token has an empty candidate list. -/
def f2p (T : Tables) (phrase : List Char) (max_word_size cutoff : Nat) :
    Option (List Char) :=
  (firstTexts (f2p_list T phrase max_word_size cutoff)).map List.flatten

/-- Modelled from the spec: a small concrete instance of the resource tables
(the actual table files `f2p-beginning.txt`, `f2p-middle.txt`,
`f2p-ending.txt`, `persian-word-freq.txt`, `f2p-dict.txt` are data files of
the repository, absent from the sources).  Following the spec's data model
and its scenario `convert_phrase("Salam, khoobi?") = "سلام، خوبی؟"`, the
override dictionary maps `salam` to a fixed Persian string, the positional
tables carry a few single-letter clusters, and the frequency corpus is
empty. -/
def Tmodel : Tables where
  beginning := fun c =>
    if c = ['b'] then some [['ب']]
    else if c = ['a'] then some [['آ']]
    else none
  middle := fun c => if c = ['b'] then some [['ب']] else none
  ending := fun c =>
    if c = ['b'] then some [['ب']]
    else if c = ['a'] then some [['ا']]
    else none
  word_freq := fun _ => 0
  dictionary := fun w => if w = "salam".data then some "سلام".data else none

/-- Collapse relation describing how the Segmenter's cluster concatenation may
differ from the input word: it rewrites the word chunkwise, each chunk either
kept verbatim, or one of the canonicalizing collapses performed by
`variations` (word-final `a` capitalized, long vowels `aa`/`ee`/`oo`/`ou`
collapsed, apostrophe-marked long vowels collapsed, doubled letters
collapsed). -/
inductive Collapse : List Char → List Char → Prop where
  | nil : Collapse [] []
  | lastA : Collapse ['a'] ['A']
  | keep (c : Char) {s t : List Char} :
      Collapse s t → Collapse (c :: s) (c :: t)
  | dbl (c : Char) {s t : List Char} :
      Collapse s t → Collapse (c :: c :: s) (c :: t)
  | aa {s t : List Char} :
      Collapse s t → Collapse ('a' :: 'a' :: s) ('A' :: t)
  | ee {s t : List Char} :
      Collapse s t → Collapse ('e' :: 'e' :: s) ('i' :: t)
  | oo {s t : List Char} :
      Collapse s t → Collapse ('o' :: 'o' :: s) ('u' :: t)
  | ou {s t : List Char} :
      Collapse s t → Collapse ('o' :: 'u' :: s) ('u' :: t)
  | apEE {s t : List Char} :
      Collapse s t → Collapse ('\'' :: 'e' :: 'e' :: s) ('\'' :: 'i' :: t)
  | apEI {s t : List Char} :
      Collapse s t → Collapse ('\'' :: 'e' :: 'i' :: s) ('\'' :: 'i' :: t)
  | apOO {s t : List Char} :
      Collapse s t → Collapse ('\'' :: 'o' :: 'o' :: s) ('\'' :: 'u' :: t)
  | apOU {s t : List Char} :
      Collapse s t → Collapse ('\'' :: 'o' :: 'u' :: s) ('\'' :: 'u' :: t)

/-- The property that a candidate list is sorted by non-increasing
confidence. -/
def sortedByConfidence (l : List (List Char × ℚ)) : Prop :=
  l.Pairwise (fun a b => b.2 ≤ a.2)

/-- The property that every confidence in a candidate list lies in
`[0, 1]`. -/
def confidencesBounded (l : List (List Char × ℚ)) : Prop :=
  ∀ p ∈ l, 0 ≤ p.2 ∧ p.2 ≤ 1

theorem flatten_consTok (c : Char) (ts : List (List Char)) :
    (consTok c ts).flatten = c :: ts.flatten := by
  match ts with
  | [] => rfl
  | [] :: ts' => rfl
  | (d :: t) :: ts' =>
    simp only [consTok]
    split_ifs <;> simp

theorem nil_not_mem_consTok (c : Char) (ts : List (List Char))
    (h : [] ∉ ts) : [] ∉ consTok c ts := by
  match ts with
  | [] => simp [consTok]
  | [] :: ts' => simp at h
  | (d :: t) :: ts' =>
    simp only [consTok]
    split_ifs <;> simp_all

theorem tokenize_flatten (p : List Char) : (tokenize p).flatten = p := by
  induction p with
  | nil => rfl
  | cons c cs ih =>
    simp only [tokenize]
    split_ifs with hc
    · simp [ih]
    · rw [flatten_consTok, ih]

theorem nil_not_mem_tokenize (p : List Char) : [] ∉ tokenize p := by
  induction p with
  | nil => simp [tokenize]
  | cons c cs ih =>
    simp only [tokenize]
    split_ifs with hc
    · simp [ih]
    · exact nil_not_mem_consTok c _ ih

theorem mem_of_mem_insertDesc {x a : List Char × ℚ} {l : List (List Char × ℚ)}
    (h : a ∈ insertDesc x l) : a = x ∨ a ∈ l := by
  induction l with
  | nil => simpa [insertDesc] using h
  | cons y ys ih =>
    simp only [insertDesc] at h
    split_ifs at h with hle
    · rcases List.mem_cons.1 h with h1 | h2
      · exact .inl h1
      · exact .inr h2
    · rcases List.mem_cons.1 h with h1 | h2
      · exact .inr (by simp [h1])
      · rcases ih h2 with h3 | h3
        · exact .inl h3
        · exact .inr (List.mem_cons_of_mem y h3)

theorem length_insertDesc (x : List Char × ℚ) (l : List (List Char × ℚ)) :
    (insertDesc x l).length = l.length + 1 := by
  induction l with
  | nil => rfl
  | cons y ys ih =>
    simp only [insertDesc]
    split_ifs <;> simp [ih]

theorem sortDesc_cons (x : List Char × ℚ) (l : List (List Char × ℚ)) :
    sortDesc (x :: l) = insertDesc x (sortDesc l) := rfl

theorem length_sortDesc (l : List (List Char × ℚ)) :
    (sortDesc l).length = l.length := by
  induction l with
  | nil => rfl
  | cons x xs ih => rw [sortDesc_cons, length_insertDesc, ih, List.length_cons]

theorem mem_of_mem_sortDesc {a : List Char × ℚ} {l : List (List Char × ℚ)}
    (h : a ∈ sortDesc l) : a ∈ l := by
  induction l with
  | nil => simpa [sortDesc] using h
  | cons x xs ih =>
    rw [sortDesc_cons] at h
    rcases mem_of_mem_insertDesc h with rfl | h2
    · exact List.mem_cons_self a xs
    · exact List.mem_cons_of_mem x (ih h2)

theorem pairwise_insertDesc (x : List Char × ℚ) {l : List (List Char × ℚ)}
    (h : l.Pairwise (fun a b => b.2 ≤ a.2)) :
    (insertDesc x l).Pairwise (fun a b => b.2 ≤ a.2) := by
  induction l with
  | nil => simp [insertDesc]
  | cons y ys ih =>
    rcases List.pairwise_cons.1 h with ⟨hy, hys⟩
    simp only [insertDesc]
    split_ifs with hle
    · refine List.pairwise_cons.2 ⟨?_, h⟩
      intro z hz
      rcases List.mem_cons.1 hz with rfl | hz'
      · exact hle
      · exact le_trans (hy z hz') hle
    · refine List.pairwise_cons.2 ⟨?_, ih hys⟩
      intro z hz
      rcases mem_of_mem_insertDesc hz with rfl | hz'
      · exact le_of_not_le hle
      · exact hy z hz'

theorem pairwise_sortDesc (l : List (List Char × ℚ)) :
    (sortDesc l).Pairwise (fun a b => b.2 ≤ a.2) := by
  induction l with
  | nil => simp [sortDesc]
  | cons x xs ih => exact pairwise_insertDesc x ih

theorem init_le_foldl_max (l : List Nat) : ∀ init : Nat,
    init ≤ l.foldl Nat.max init := by
  induction l with
  | nil => intro init; exact le_refl _
  | cons b bs ih =>
    intro init
    exact le_trans (Nat.le_max_left init b) (ih _)

theorem le_foldl_max (l : List Nat) : ∀ (init a : Nat), a ∈ l →
    a ≤ l.foldl Nat.max init := by
  induction l with
  | nil => intro _ _ h; simp at h
  | cons b bs ih =>
    intro init a ha
    rcases List.mem_cons.1 ha with rfl | ha'
    · exact le_trans (Nat.le_max_right init a) (init_le_foldl_max bs _)
    · exact ih _ a ha'

theorem Collapse.keeps (pre : List Char) {s t : List Char}
    (h : Collapse s t) : Collapse (pre ++ s) (pre ++ t) := by
  induction pre with
  | nil => simpa using h
  | cons c cs ih => exact .keep c ih


theorem variations_one (c : Char) :
    variations [c] = if c = 'a' then [[['A']]] else [[[c]]] := rfl

theorem variations_two (c₁ c₂ : Char) :
    variations [c₁, c₂] =
      if c₁ = 'a' ∧ c₂ = 'a' then [[['A']]]
      else if c₁ = 'e' ∧ c₂ = 'e' then [[['i']]]
      else if c₁ = 'e' ∧ c₂ = 'i' then [[['e', 'i']]]
      else if c₁ = 'o' ∧ (c₂ = 'o' ∨ c₂ = 'u') then [[['u']]]
      else if isDigraphPair c₁ c₂ then [[[c₁, c₂]]]
      else if c₂ = '\'' ∧ isShortVowel c₁ then [[[c₁, '\'']]]
      else if c₁ = '\'' ∧ isShortVowel c₂ then [[['\'', c₂]]]
      else if c₁ = c₂ then [[[c₁]]]
      else (variations [c₂]).map ([c₁] :: ·) := rfl

theorem variations_many (c₁ c₂ c₃ : Char) (rest : List Char) :
    variations (c₁ :: c₂ :: c₃ :: rest) =
      if rest = [] ∧ c₁ = 'k' ∧ c₂ = 'h' ∧ c₃ = 'a' then
        [[['k', 'h', 'a']], [['k', 'h'], ['a']]]
      else if rest = [] ∧ c₁ = '\'' ∧ c₂ = 'e' ∧ (c₃ = 'e' ∨ c₃ = 'i') then
        [[['\'', 'i']]]
      else if rest = [] ∧ c₁ = '\'' ∧ c₂ = 'o' ∧ (c₃ = 'o' ∨ c₃ = 'u') then
        [[['\'', 'u']]]
      else if c₁ = 'a' ∧ c₂ = 'a' then
        (variations (c₃ :: rest)).map (['A'] :: ·)
      else if c₁ = 'e' ∧ c₂ = 'e' then
        (variations (c₃ :: rest)).map (['i'] :: ·)
      else if c₁ = 'o' ∧ (c₂ = 'o' ∨ c₂ = 'u') then
        (variations (c₃ :: rest)).map (['u'] :: ·)
      else if c₁ = 'k' ∧ c₂ = 'h' ∧ c₃ = 'a' then
        (variations rest).map (['k', 'h', 'a'] :: ·) ++
        (variations rest).map (fun i => ['k', 'h'] :: ['a'] :: i) ++
        (variations rest).map (fun i => ['k'] :: ['h'] :: ['a'] :: i)
      else if isDigraphPair c₁ c₂ then
        (variations (c₃ :: rest)).map ([c₁, c₂] :: ·) ++
        (variations (c₂ :: c₃ :: rest)).map ([c₁] :: ·)
      else if c₂ = '\'' ∧ isShortVowel c₁ then
        (variations (c₃ :: rest)).map ([c₁, c₂] :: ·)
      else if c₁ = '\'' ∧ c₂ = 'e' ∧ (c₃ = 'e' ∨ c₃ = 'i') then
        (variations rest).map (['\'', 'i'] :: ·)
      else if c₁ = '\'' ∧ c₂ = 'o' ∧ (c₃ = 'o' ∨ c₃ = 'u') then
        (variations rest).map (['\'', 'u'] :: ·)
      else if c₁ = '\'' ∧ isShortVowel c₂ then
        (variations (c₃ :: rest)).map ([c₁, c₂] :: ·)
      else if c₁ = c₂ then
        (variations (c₃ :: rest)).map ([c₁] :: ·)
      else
        (variations (c₂ :: c₃ :: rest)).map ([c₁] :: ·) := rfl

theorem variations_collapse_aux (n : Nat) : ∀ (w : List Char),
    w.length ≤ n → ∀ s ∈ variations w, Collapse w s.flatten := by
  induction n with
  | zero =>
    intro w hw s hs
    have hnil : w = [] := List.length_eq_zero.1 (Nat.le_zero.1 hw)
    subst hnil
    simp [variations] at hs
  | succ n ih =>
    intro w hw s hs
    rcases w with _ | ⟨c₁, _ | ⟨c₂, _ | ⟨c₃, rest⟩⟩⟩
    · simp [variations] at hs
    · rw [variations_one] at hs
      by_cases h : c₁ = 'a'
      · rw [if_pos h] at hs
        simp at hs; subst hs; subst h; exact Collapse.lastA
      · rw [if_neg h] at hs
        simp at hs; subst hs; exact Collapse.keep c₁ Collapse.nil
    · have hlen : ([c₂] : List Char).length ≤ n := by simp at hw ⊢; omega
      rw [variations_two] at hs
      by_cases h1 : c₁ = 'a' ∧ c₂ = 'a'
      · rw [if_pos h1] at hs
        obtain ⟨rfl, rfl⟩ := h1
        simp at hs; subst hs; exact Collapse.aa Collapse.nil
      rw [if_neg h1] at hs
      by_cases h2 : c₁ = 'e' ∧ c₂ = 'e'
      · rw [if_pos h2] at hs
        obtain ⟨rfl, rfl⟩ := h2
        simp at hs; subst hs; exact Collapse.ee Collapse.nil
      rw [if_neg h2] at hs
      by_cases h3 : c₁ = 'e' ∧ c₂ = 'i'
      · rw [if_pos h3] at hs
        obtain ⟨rfl, rfl⟩ := h3
        simp at hs; subst hs
        exact Collapse.keep 'e' (Collapse.keep 'i' Collapse.nil)
      rw [if_neg h3] at hs
      by_cases h4 : c₁ = 'o' ∧ (c₂ = 'o' ∨ c₂ = 'u')
      · rw [if_pos h4] at hs
        obtain ⟨rfl, hc⟩ := h4
        simp at hs; subst hs
        rcases hc with rfl | rfl
        · exact Collapse.oo Collapse.nil
        · exact Collapse.ou Collapse.nil
      rw [if_neg h4] at hs
      by_cases h5 : isDigraphPair c₁ c₂ = true
      · rw [if_pos h5] at hs
        simp at hs; subst hs
        exact Collapse.keep c₁ (Collapse.keep c₂ Collapse.nil)
      rw [if_neg h5] at hs
      by_cases h6 : c₂ = '\'' ∧ isShortVowel c₁ = true
      · rw [if_pos h6] at hs
        obtain ⟨rfl, -⟩ := h6
        simp at hs; subst hs
        exact Collapse.keep c₁ (Collapse.keep '\'' Collapse.nil)
      rw [if_neg h6] at hs
      by_cases h7 : c₁ = '\'' ∧ isShortVowel c₂ = true
      · rw [if_pos h7] at hs
        obtain ⟨rfl, -⟩ := h7
        simp at hs; subst hs
        exact Collapse.keep '\'' (Collapse.keep c₂ Collapse.nil)
      rw [if_neg h7] at hs
      by_cases h8 : c₁ = c₂
      · rw [if_pos h8] at hs
        subst h8
        simp at hs; subst hs
        exact Collapse.dbl c₁ Collapse.nil
      rw [if_neg h8] at hs
      rcases List.mem_map.1 hs with ⟨s', hs', rfl⟩
      exact Collapse.keep c₁ (ih [c₂] hlen s' hs')
    · have hw' : rest.length + 3 ≤ n + 1 := by simpa using hw
      have hl1 : (c₃ :: rest).length ≤ n := by simp; omega
      have hl2 : (c₂ :: c₃ :: rest).length ≤ n := by simp; omega
      have hl3 : rest.length ≤ n := by omega
      rw [variations_many] at hs
      by_cases h1 : rest = [] ∧ c₁ = 'k' ∧ c₂ = 'h' ∧ c₃ = 'a'
      · rw [if_pos h1] at hs
        obtain ⟨rfl, rfl, rfl, rfl⟩ := h1
        simp at hs
        rcases hs with rfl | rfl
        · exact Collapse.keep 'k' (Collapse.keep 'h'
            (Collapse.keep 'a' Collapse.nil))
        · exact Collapse.keep 'k' (Collapse.keep 'h'
            (Collapse.keep 'a' Collapse.nil))
      rw [if_neg h1] at hs
      by_cases h2 : rest = [] ∧ c₁ = '\'' ∧ c₂ = 'e' ∧ (c₃ = 'e' ∨ c₃ = 'i')
      · rw [if_pos h2] at hs
        obtain ⟨rfl, rfl, rfl, hc⟩ := h2
        simp at hs; subst hs
        rcases hc with rfl | rfl
        · exact Collapse.apEE Collapse.nil
        · exact Collapse.apEI Collapse.nil
      rw [if_neg h2] at hs
      by_cases h3 : rest = [] ∧ c₁ = '\'' ∧ c₂ = 'o' ∧ (c₃ = 'o' ∨ c₃ = 'u')
      · rw [if_pos h3] at hs
        obtain ⟨rfl, rfl, rfl, hc⟩ := h3
        simp at hs; subst hs
        rcases hc with rfl | rfl
        · exact Collapse.apOO Collapse.nil
        · exact Collapse.apOU Collapse.nil
      rw [if_neg h3] at hs
      by_cases h4 : c₁ = 'a' ∧ c₂ = 'a'
      · rw [if_pos h4] at hs
        obtain ⟨rfl, rfl⟩ := h4
        rcases List.mem_map.1 hs with ⟨s', hm, rfl⟩
        exact Collapse.aa (ih _ hl1 s' hm)
      rw [if_neg h4] at hs
      by_cases h5 : c₁ = 'e' ∧ c₂ = 'e'
      · rw [if_pos h5] at hs
        obtain ⟨rfl, rfl⟩ := h5
        rcases List.mem_map.1 hs with ⟨s', hm, rfl⟩
        exact Collapse.ee (ih _ hl1 s' hm)
      rw [if_neg h5] at hs
      by_cases h6 : c₁ = 'o' ∧ (c₂ = 'o' ∨ c₂ = 'u')
      · rw [if_pos h6] at hs
        obtain ⟨rfl, hc⟩ := h6
        rcases List.mem_map.1 hs with ⟨s', hm, rfl⟩
        rcases hc with rfl | rfl
        · exact Collapse.oo (ih _ hl1 s' hm)
        · exact Collapse.ou (ih _ hl1 s' hm)
      rw [if_neg h6] at hs
      by_cases h7 : c₁ = 'k' ∧ c₂ = 'h' ∧ c₃ = 'a'
      · rw [if_pos h7] at hs
        obtain ⟨rfl, rfl, rfl⟩ := h7
        rcases List.mem_append.1 hs with hs' | hs'
        · rcases List.mem_append.1 hs' with hs'' | hs''
          · rcases List.mem_map.1 hs'' with ⟨s', hm, rfl⟩
            exact Collapse.keep 'k' (Collapse.keep 'h'
              (Collapse.keep 'a' (ih _ hl3 s' hm)))
          · rcases List.mem_map.1 hs'' with ⟨s', hm, rfl⟩
            exact Collapse.keep 'k' (Collapse.keep 'h'
              (Collapse.keep 'a' (ih _ hl3 s' hm)))
        · rcases List.mem_map.1 hs' with ⟨s', hm, rfl⟩
          exact Collapse.keep 'k' (Collapse.keep 'h'
            (Collapse.keep 'a' (ih _ hl3 s' hm)))
      rw [if_neg h7] at hs
      by_cases h8 : isDigraphPair c₁ c₂ = true
      · rw [if_pos h8] at hs
        rcases List.mem_append.1 hs with hs' | hs'
        · rcases List.mem_map.1 hs' with ⟨s', hm, rfl⟩
          exact Collapse.keep c₁ (Collapse.keep c₂ (ih _ hl1 s' hm))
        · rcases List.mem_map.1 hs' with ⟨s', hm, rfl⟩
          exact Collapse.keep c₁ (ih _ hl2 s' hm)
      rw [if_neg h8] at hs
      by_cases h9 : c₂ = '\'' ∧ isShortVowel c₁ = true
      · rw [if_pos h9] at hs
        rcases List.mem_map.1 hs with ⟨s', hm, rfl⟩
        exact Collapse.keep c₁ (Collapse.keep c₂ (ih _ hl1 s' hm))
      rw [if_neg h9] at hs
      by_cases h10 : c₁ = '\'' ∧ c₂ = 'e' ∧ (c₃ = 'e' ∨ c₃ = 'i')
      · rw [if_pos h10] at hs
        obtain ⟨rfl, rfl, hc⟩ := h10
        rcases List.mem_map.1 hs with ⟨s', hm, rfl⟩
        rcases hc with rfl | rfl
        · exact Collapse.apEE (ih _ hl3 s' hm)
        · exact Collapse.apEI (ih _ hl3 s' hm)
      rw [if_neg h10] at hs
      by_cases h11 : c₁ = '\'' ∧ c₂ = 'o' ∧ (c₃ = 'o' ∨ c₃ = 'u')
      · rw [if_pos h11] at hs
        obtain ⟨rfl, rfl, hc⟩ := h11
        rcases List.mem_map.1 hs with ⟨s', hm, rfl⟩
        rcases hc with rfl | rfl
        · exact Collapse.apOO (ih _ hl3 s' hm)
        · exact Collapse.apOU (ih _ hl3 s' hm)
      rw [if_neg h11] at hs
      by_cases h12 : c₁ = '\'' ∧ isShortVowel c₂ = true
      · rw [if_pos h12] at hs
        rcases List.mem_map.1 hs with ⟨s', hm, rfl⟩
        exact Collapse.keep c₁ (Collapse.keep c₂ (ih _ hl1 s' hm))
      rw [if_neg h12] at hs
      by_cases h13 : c₁ = c₂
      · rw [if_pos h13] at hs
        subst h13
        rcases List.mem_map.1 hs with ⟨s', hm, rfl⟩
        exact Collapse.dbl c₁ (ih _ hl1 s' hm)
      rw [if_neg h13] at hs
      rcases List.mem_map.1 hs with ⟨s', hm, rfl⟩
      exact Collapse.keep c₁ (ih _ hl2 s' hm)

theorem variations_ne_nil_aux (n : Nat) : ∀ (w : List Char),
    w.length ≤ n → w ≠ [] → variations w ≠ [] := by
  induction n with
  | zero =>
    intro w hw hne
    exact absurd (List.length_eq_zero.1 (Nat.le_zero.1 hw)) hne
  | succ n ih =>
    intro w hw hne
    rcases w with _ | ⟨c₁, _ | ⟨c₂, _ | ⟨c₃, rest⟩⟩⟩
    · exact absurd rfl hne
    · rw [variations_one]
      split_ifs <;> simp
    · have hlen : ([c₂] : List Char).length ≤ n := by simp at hw ⊢; omega
      rw [variations_two]
      by_cases h1 : c₁ = 'a' ∧ c₂ = 'a'
      · rw [if_pos h1]; simp
      rw [if_neg h1]
      by_cases h2 : c₁ = 'e' ∧ c₂ = 'e'
      · rw [if_pos h2]; simp
      rw [if_neg h2]
      by_cases h3 : c₁ = 'e' ∧ c₂ = 'i'
      · rw [if_pos h3]; simp
      rw [if_neg h3]
      by_cases h4 : c₁ = 'o' ∧ (c₂ = 'o' ∨ c₂ = 'u')
      · rw [if_pos h4]; simp
      rw [if_neg h4]
      by_cases h5 : isDigraphPair c₁ c₂ = true
      · rw [if_pos h5]; simp
      rw [if_neg h5]
      by_cases h6 : c₂ = '\'' ∧ isShortVowel c₁ = true
      · rw [if_pos h6]; simp
      rw [if_neg h6]
      by_cases h7 : c₁ = '\'' ∧ isShortVowel c₂ = true
      · rw [if_pos h7]; simp
      rw [if_neg h7]
      by_cases h8 : c₁ = c₂
      · rw [if_pos h8]; simp
      rw [if_neg h8]
      exact fun hmap =>
        ih [c₂] hlen (by simp) (List.map_eq_nil_iff.1 hmap)
    · have hw' : rest.length + 3 ≤ n + 1 := by simpa using hw
      have hl1 : (c₃ :: rest).length ≤ n := by simp; omega
      have hl2 : (c₂ :: c₃ :: rest).length ≤ n := by simp; omega
      have hl3 : rest.length ≤ n := by omega
      rw [variations_many]
      by_cases h1 : rest = [] ∧ c₁ = 'k' ∧ c₂ = 'h' ∧ c₃ = 'a'
      · rw [if_pos h1]; simp
      rw [if_neg h1]
      by_cases h2 : rest = [] ∧ c₁ = '\'' ∧ c₂ = 'e' ∧ (c₃ = 'e' ∨ c₃ = 'i')
      · rw [if_pos h2]; simp
      rw [if_neg h2]
      by_cases h3 : rest = [] ∧ c₁ = '\'' ∧ c₂ = 'o' ∧ (c₃ = 'o' ∨ c₃ = 'u')
      · rw [if_pos h3]; simp
      rw [if_neg h3]
      by_cases h4 : c₁ = 'a' ∧ c₂ = 'a'
      · rw [if_pos h4]
        exact fun hmap =>
          ih _ hl1 (by simp) (List.map_eq_nil_iff.1 hmap)
      rw [if_neg h4]
      by_cases h5 : c₁ = 'e' ∧ c₂ = 'e'
      · rw [if_pos h5]
        exact fun hmap =>
          ih _ hl1 (by simp) (List.map_eq_nil_iff.1 hmap)
      rw [if_neg h5]
      by_cases h6 : c₁ = 'o' ∧ (c₂ = 'o' ∨ c₂ = 'u')
      · rw [if_pos h6]
        exact fun hmap =>
          ih _ hl1 (by simp) (List.map_eq_nil_iff.1 hmap)
      rw [if_neg h6]
      by_cases h7 : c₁ = 'k' ∧ c₂ = 'h' ∧ c₃ = 'a'
      · rw [if_pos h7]
        have hrest : rest ≠ [] := fun hr => h1 ⟨hr, h7.1, h7.2.1, h7.2.2⟩
        intro h
        rcases List.append_eq_nil.1 h with ⟨h', -⟩
        rcases List.append_eq_nil.1 h' with ⟨h'', -⟩
        exact ih rest hl3 hrest (List.map_eq_nil_iff.1 h'')
      rw [if_neg h7]
      by_cases h8 : isDigraphPair c₁ c₂ = true
      · rw [if_pos h8]
        intro h
        rcases List.append_eq_nil.1 h with ⟨h', -⟩
        exact ih _ hl1 (by simp) (List.map_eq_nil_iff.1 h')
      rw [if_neg h8]
      by_cases h9 : c₂ = '\'' ∧ isShortVowel c₁ = true
      · rw [if_pos h9]
        exact fun hmap =>
          ih _ hl1 (by simp) (List.map_eq_nil_iff.1 hmap)
      rw [if_neg h9]
      by_cases h10 : c₁ = '\'' ∧ c₂ = 'e' ∧ (c₃ = 'e' ∨ c₃ = 'i')
      · rw [if_pos h10]
        have hrest : rest ≠ [] := fun hr => h2 ⟨hr, h10.1, h10.2.1, h10.2.2⟩
        exact fun hmap => ih rest hl3 hrest (List.map_eq_nil_iff.1 hmap)
      rw [if_neg h10]
      by_cases h11 : c₁ = '\'' ∧ c₂ = 'o' ∧ (c₃ = 'o' ∨ c₃ = 'u')
      · rw [if_pos h11]
        have hrest : rest ≠ [] := fun hr => h3 ⟨hr, h11.1, h11.2.1, h11.2.2⟩
        exact fun hmap => ih rest hl3 hrest (List.map_eq_nil_iff.1 hmap)
      rw [if_neg h11]
      by_cases h12 : c₁ = '\'' ∧ isShortVowel c₂ = true
      · rw [if_pos h12]
        exact fun hmap =>
          ih _ hl1 (by simp) (List.map_eq_nil_iff.1 hmap)
      rw [if_neg h12]
      by_cases h13 : c₁ = c₂
      · rw [if_pos h13]
        exact fun hmap =>
          ih _ hl1 (by simp) (List.map_eq_nil_iff.1 hmap)
      rw [if_neg h13]
      exact fun hmap =>
        ih _ hl2 (by simp) (List.map_eq_nil_iff.1 hmap)

theorem variations_ne_nil {w : List Char} (hne : w ≠ []) :
    variations w ≠ [] :=
  variations_ne_nil_aux w.length w le_rfl hne

theorem f2p_word_internal_ne_nil (T : Tables) (s : List (List Char))
    (orig : List Char) : f2p_word_internal T s orig ≠ [] := by
  unfold f2p_word_internal
  split
  · simp
  · simp only [gt_iff_lt]
    split_ifs with h
    · intro hmap
      rw [List.map_eq_nil_iff, List.map_eq_nil_iff] at hmap
      rw [hmap] at h
      simp at h
    · simp

theorem f2p_word_internal_conf (T : Tables) (s : List (List Char))
    (orig : List Char) :
    ∀ p ∈ f2p_word_internal T s orig, 0 ≤ p.2 ∧ p.2 ≤ 1 := by
  intro p hp
  unfold f2p_word_internal at hp
  split at hp
  · simp at hp; subst hp; norm_num
  · rename_i persian heq
    simp only [gt_iff_lt] at hp
    split_ifs at hp with h
    · rcases List.mem_map.1 hp with ⟨q, hq, rfl⟩
      rcases List.mem_map.1 hq with ⟨a, ha, rfl⟩
      split_ifs with hz
      · constructor
        · exact div_nonneg (Nat.cast_nonneg _) (Nat.cast_nonneg _)
        · apply div_le_one_of_le
          · have hmem := List.mem_map_of_mem Prod.snd
              (List.mem_map_of_mem (fun b => (b, T.word_freq b)) ha)
            exact_mod_cast le_foldl_max _ 0 _ hmem
          · exact Nat.cast_nonneg _
      · norm_num
    · simp at hp; subst hp; norm_num

theorem take_ne_nil {α : Type} {l : List α} {k : Nat}
    (hl : l ≠ []) (hk : 1 ≤ k) : l.take k ≠ [] := by
  cases l with
  | nil => exact absurd rfl hl
  | cons x xs =>
    cases k with
    | zero => omega
    | succ k => simp

theorem sortDesc_ne_nil {l : List (List Char × ℚ)} (h : l ≠ []) :
    sortDesc l ≠ [] := by
  intro h0
  apply h
  have hlen := length_sortDesc l
  rw [h0] at hlen
  exact List.length_eq_zero.1 hlen.symm

theorem f2p_word_ne_nil (T : Tables) (w : List Char) (m k : Nat)
    (hw : w ≠ []) (hk : 1 ≤ k) : f2p_word T w m k ≠ [] := by
  unfold f2p_word
  simp only [ne_eq]
  split_ifs with h1 h2 h3
  · exact absurd (List.map_eq_nil_iff.1 h2) hw
  · simp
  · apply take_ne_nil _ hk
    apply sortDesc_ne_nil
    have hvar : variations (w.map Char.toLower) ≠ [] :=
      variations_ne_nil (fun hmap => hw (List.map_eq_nil_iff.1 hmap))
    rcases List.exists_cons_of_ne_nil hvar with ⟨v, vs, hv⟩
    rw [hv, List.flatMap_cons]
    exact List.append_ne_nil_of_left_ne_nil (f2p_word_internal_ne_nil T v w) _
  · simp

theorem firstTexts_isSome : ∀ (L : List (List (List Char × ℚ))),
    (∀ i ∈ L, i ≠ []) → (firstTexts L).isSome = true := by
  intro L
  induction L with
  | nil => intro _; rfl
  | cons i rest ih =>
    intro h
    have hi := h i (by simp)
    rcases List.exists_cons_of_ne_nil hi with ⟨x, xs, rfl⟩
    have hr := ih (fun j hj => h j (by simp [hj]))
    rcases Option.isSome_iff_exists.1 hr with ⟨v, hv⟩
    simp only [firstTexts]
    rw [hv]
    rfl

theorem convert_token_ne_nil (T : Tables) (m k : Nat) (hk : 1 ≤ k)
    (t : List Char) (ht : t ≠ []) : convert_token T m k t ≠ [] := by
  unfold convert_token
  split_ifs with h1 h2
  · simp
  · exact f2p_word_ne_nil T t m k ht hk
  · simp

theorem f2p_word_conf (T : Tables) (w : List Char) (m k : Nat) :
    ∀ p ∈ f2p_word T w m k, 0 ≤ p.2 ∧ p.2 ≤ 1 := by
  intro p hp
  unfold f2p_word at hp
  simp only [ne_eq] at hp
  split_ifs at hp with h1 h2 h3
  · simp at hp
  · simp at hp; subst hp; norm_num
  · have hp2 := mem_of_mem_sortDesc (List.mem_of_mem_take hp)
    rcases List.mem_flatMap.1 hp2 with ⟨sseg, hsseg, hmem⟩
    exact f2p_word_internal_conf T sseg w p hmem
  · simp at hp; subst hp; norm_num

theorem f2p_word_sorted (T : Tables) (w : List Char) (m k : Nat) :
    sortedByConfidence (f2p_word T w m k) := by
  unfold sortedByConfidence f2p_word
  simp only [ne_eq]
  split_ifs with h1 h2 h3
  · exact List.Pairwise.nil
  · exact List.pairwise_singleton _ _
  · exact List.Pairwise.sublist (List.take_sublist _ _) (pairwise_sortDesc _)
  · exact List.pairwise_singleton _ _

theorem buildPersian_eq_none (T : Tables) (n : Nat) :
    ∀ (cs : List (List Char)) (i j : Nat) (hj : j < cs.length),
      lookupConv T (i + j) n (cs.get ⟨j, hj⟩) = none →
      buildPersian T n i cs = none := by
  intro cs
  induction cs with
  | nil => intro i j hj; simp at hj
  | cons c cs' ih =>
    intro i j hj hnone
    cases j with
    | zero =>
      simp only [List.get] at hnone
      rw [Nat.add_zero] at hnone
      unfold buildPersian
      rw [hnone]
    | succ j' =>
      unfold buildPersian
      cases hl : lookupConv T i n c with
      | none => rfl
      | some conv =>
        have hj' : j' < cs'.length := by simpa using hj
        have heq : i + (j' + 1) = (i + 1) + j' := by omega
        have hrec := ih (i + 1) j' hj' (by rw [← heq]; simpa using hnone)
        rw [hrec]
        rfl

theorem pyIsSpace_eq_false_of_word {c : Char} (h : pyIsWordChar c = true) :
    pyIsSpace c = false := by
  cases hs : pyIsSpace c
  · rfl
  · exfalso
    have hc : c = ' ' ∨ c = '\t' ∨ c = '\n' ∨ c = '\r' ∨
        c = '\x0b' ∨ c = '\x0c' := by
      simpa [pyIsSpace, or_assoc] using hs
    rcases hc with rfl | rfl | rfl | rfl | rfl | rfl <;>
      exact absurd h (by decide)

theorem isAlphanum_of_word {c : Char} (h : pyIsWordChar c = true)
    (hne : c ≠ '_') : c.isAlphanum = true := by
  simp [pyIsWordChar] at h
  rcases h with h | h
  · exact h
  · exact absurd h hne

theorem word_of_isAlphanum {c : Char} (h : c.isAlphanum = true) :
    pyIsWordChar c = true := by
  simp [pyIsWordChar, h]

/-- C1 counterexample: the claim as stated is false.  The word `aa` has the
single segmentation `['A']`, whose concatenation is `A`, not `aa`: the
Segmenter canonicalizes long vowels instead of preserving the spelling. -/
theorem segmentation_coverage_cex :
    (variations ['a', 'a']).map List.flatten = [['A']] ∧
      (['A'] : List Char) ≠ ['a', 'a'] := by
  decide

/-- C1 (amended): concatenating the clusters of any segmentation returned by
`variations` reproduces the lowercased word up to the Segmenter's canonical
collapses, described by the `Collapse` relation: a word-final `a` becomes the
cluster `A`; the chunks `aa`, `ee`, `oo`, `ou` collapse to the single marked
vowels `A`, `i`, `u`, `u`; the apostrophe chunks `'ee`/`'ei` and `'oo`/`'ou`
collapse to `'i` and `'u`; a doubled letter collapses to one copy; every
other character is reproduced verbatim in order. -/
theorem segmentation_coverage_amended (w : List Char) :
    ∀ s ∈ variations w, Collapse w s.flatten :=
  variations_collapse_aux w.length w le_rfl

/-- Witness for C1 (amended) at the concrete word `ab` and its only
segmentation `[a][b]`. -/
theorem segmentation_coverage_amended_witness :
    [['a'], ['b']] ∈ variations ['a', 'b'] ∧
      Collapse ['a', 'b'] ([['a'], ['b']].flatten) :=
  ⟨by decide, segmentation_coverage_amended ['a', 'b'] [['a'], ['b']]
    (by decide)⟩

/-- C2 counterexample: the claim as stated is false.  With the override
dictionary modelled from the spec (`salam` entry), `f2p_word "salam" 3 1`
hits the dictionary although the word is longer than `max_word_size = 3`, so
the result is the override value, not the original word. -/
theorem length_gating_cex :
    f2p_word Tmodel "salam".data 3 1 = [("سلام".data, 1)] ∧
      ("salam".data).length > 3 ∧
      ("سلام".data, (1 : ℚ)) ≠ ("salam".data, 1) := by
  decide

/-- C2 (amended): for every word whose lowercased form is not mapped to a
non-empty value by the override dictionary, if its length exceeds
`max_word_size` then `f2p_word` returns exactly the original word with
confidence `1.0`. -/
theorem length_gating_amended (T : Tables) (w : List Char) (m k : Nat)
    (hdict : (T.dictionary (w.map Char.toLower)).getD [] = [])
    (hlen : w.length > m) : f2p_word T w m k = [(w, 1)] := by
  unfold f2p_word
  simp only [ne_eq]
  split_ifs with h1 h2
  · exfalso
    rw [List.map_eq_nil_iff] at h1
    subst h1
    simp at hlen
  · rfl
  · exfalso
    apply h2
    rw [List.length_map]
    exact hlen

/-- Witness for C2 (amended) at a 16-character word with
`max_word_size = 15`. -/
theorem length_gating_amended_witness :
    f2p_word Tmodel (List.replicate 16 'x') 15 1 =
      [(List.replicate 16 'x', 1)] :=
  length_gating_amended Tmodel (List.replicate 16 'x') 15 1 (by decide)
    (by decide)

/-- C3 counterexample: the claim as stated is false for `cutoff = 0`.  The
overlong-word path returns a singleton list, of length `1 > 0`; the
dictionary-override path behaves the same way. -/
theorem cutoff_bound_cex :
    f2p_word Tmodel (List.replicate 16 'x') 15 0 =
      [(List.replicate 16 'x', 1)] ∧
      (f2p_word Tmodel (List.replicate 16 'x') 15 0).length = 1 := by
  decide

/-- C3 (amended): for every `cutoff = k ≥ 1`, the list returned by
`f2p_word` has length at most `k` on every path, including the
dictionary-override, empty-word and overlong-word paths. -/
theorem cutoff_bound_amended (T : Tables) (w : List Char) (m k : Nat)
    (hk : 1 ≤ k) : (f2p_word T w m k).length ≤ k := by
  unfold f2p_word
  simp only [ne_eq]
  split_ifs with h1 h2 h3
  · simp
  · simpa using hk
  · exact List.length_take_le _ _
  · simpa using hk

/-- Witness for C3 (amended) at the word `ab` with `cutoff = 1`. -/
theorem cutoff_bound_amended_witness :
    (f2p_word Tmodel ['a', 'b'] 15 1).length ≤ 1 :=
  cutoff_bound_amended Tmodel ['a', 'b'] 15 1 (by decide)

/-- C6: if the lowercased word is a key of the override dictionary with
(non-empty, as every loaded dictionary value is) value `v`, then `f2p_word`
returns exactly `[(v, 1.0)]`, for all values of `max_word_size` and `cutoff`,
before segmentation runs. -/
theorem override_precedence (T : Tables) (w v : List Char) (m k : Nat)
    (hv : T.dictionary (w.map Char.toLower) = some v) (hne : v ≠ []) :
    f2p_word T w m k = [(v, 1)] := by
  unfold f2p_word
  simp only [ne_eq]
  rw [hv, Option.getD_some, if_pos hne]

/-- Witness for C6 at the word `Salam` (testing the lowercasing as well). -/
theorem override_precedence_witness :
    f2p_word Tmodel "Salam".data 15 1 = [("سلام".data, 1)] :=
  override_precedence Tmodel "Salam".data "سلام".data 15 1 (by decide)
    (by decide)

/-- C7: if some cluster of a segmentation has no entry in its positional
table (`beginning` for index 0, `ending` for the last index, `middle`
otherwise, as selected by `lookupConv`), then `f2p_word_internal` returns
exactly the single fallback candidate (original word, confidence 0.0) with
no partial conversion. -/
theorem unknown_cluster_fallback (T : Tables) (seg : List (List Char))
    (orig : List Char)
    (h : ∃ j, ∃ hj : j < seg.length,
      lookupConv T j seg.length (seg.get ⟨j, hj⟩) = none) :
    f2p_word_internal T seg orig = [(orig, 0)] := by
  obtain ⟨j, hj, hnone⟩ := h
  unfold f2p_word_internal
  rw [buildPersian_eq_none T seg.length seg 0 j hj (by simpa using hnone)]

/-- Witness for C7 at the one-cluster segmentation `[q]`, whose cluster is
absent from the modelled beginning table. -/
theorem unknown_cluster_fallback_witness :
    f2p_word_internal Tmodel [['q']] ['q'] = [(['q'], 0)] :=
  unknown_cluster_fallback Tmodel [['q']] ['q'] ⟨0, by decide, by decide⟩

/-- C8: tokenization is total and lossless — concatenating all tokens of a
phrase in order reconstructs the phrase exactly (so every character belongs
to exactly one token), and no token is empty. -/
theorem tokenization_lossless (p : List Char) :
    (tokenize p).flatten = p ∧ [] ∉ tokenize p :=
  ⟨tokenize_flatten p, nil_not_mem_tokenize p⟩

/-- C9: every list returned by `f2p_word` is sorted by non-increasing
confidence, and every confidence lies in `[0, 1]`. -/
theorem confidence_sorted_bounded (T : Tables) (w : List Char) (m k : Nat) :
    sortedByConfidence (f2p_word T w m k) ∧
      confidencesBounded (f2p_word T w m k) :=
  ⟨f2p_word_sorted T w m k, f2p_word_conf T w m k⟩

/-- C10: `variations` returns at least one segmentation for every non-empty
word, `f2p_word_internal` returns at least one candidate for every
segmentation, and hence `f2p_word` returns a non-empty list for every
non-empty word of length at most `max_word_size` when `cutoff ≥ 1`. -/
theorem word_converter_nonempty (T : Tables) (w : List Char) (m k : Nat) :
    (∀ v : List Char, v ≠ [] → variations v ≠ []) ∧
      (∀ (s : List (List Char)) (orig : List Char),
        f2p_word_internal T s orig ≠ []) ∧
      (w ≠ [] → w.length ≤ m → 1 ≤ k → f2p_word T w m k ≠ []) :=
  ⟨fun _ hv => variations_ne_nil hv,
   fun s orig => f2p_word_internal_ne_nil T s orig,
   fun hw _ hk => f2p_word_ne_nil T w m k hw hk⟩

/-- Witness for C10 at the word `ab` with default-like parameters. -/
theorem word_converter_nonempty_witness :
    f2p_word Tmodel ['a', 'b'] 15 1 ≠ [] :=
  (word_converter_nonempty Tmodel ['a', 'b'] 15 1).2.2 (by decide)
    (by decide) (by decide)

/-- C4 counterexample: the claim as stated is false.  The phrase `_` is a
single `\w+` token (underscore is a word character), yet `f2p_list` does not
route it to `f2p_word`: `token.isalnum()` is false for `_`, so it falls to
the punctuation branch and passes through with confidence `1.0`, while
`f2p_word` would return it with confidence `0.0`. -/
theorem token_dispatch_cex :
    tokenize ['_'] = [['_']] ∧ pyIsWordChar '_' = true ∧
      f2p_list Tmodel ['_'] 15 1 = [[(['_'], 1)]] ∧
      f2p_word Tmodel ['_'] 15 1 = [(['_'], 0)] := by
  decide

/-- C4 (amended): in `f2p_list`, a `\w+` token containing no underscore is
converted via `f2p_word`; a `\w+` token containing an underscore falls
through to the punctuation branch and passes through unchanged with
confidence `1.0`; a whitespace token passes through unchanged with
confidence `1.0`; a token of characters that are neither word characters nor
whitespace passes through via the punctuation branch, with only `?` and `,`
rewritten, with confidence `1.0`. -/
theorem token_dispatch_amended (T : Tables) (p : List Char) (m k i : Nat)
    (t : List Char) (ht : (tokenize p)[i]? = some t) :
    ((∀ c ∈ t, pyIsWordChar c = true) → '_' ∉ t →
        (f2p_list T p m k)[i]? = some (f2p_word T t m k)) ∧
      ((∀ c ∈ t, pyIsWordChar c = true) → '_' ∈ t →
        (f2p_list T p m k)[i]? = some [(t, 1)]) ∧
      ((∀ c ∈ t, pyIsSpace c = true) →
        (f2p_list T p m k)[i]? = some [(t, 1)]) ∧
      ((∀ c ∈ t, pyIsWordChar c = false ∧ pyIsSpace c = false) →
        (f2p_list T p m k)[i]? = some [(punct_map t, 1)]) := by
  have hmem : t ∈ tokenize p := by
    rcases List.getElem?_eq_some.1 ht with ⟨hlt, rfl⟩
    exact List.getElem_mem hlt
  have hne : t ≠ [] := fun h0 => nil_not_mem_tokenize p (h0 ▸ hmem)
  have hlist : (f2p_list T p m k)[i]? = some (convert_token T m k t) := by
    unfold f2p_list
    rw [List.getElem?_map, ht]
    rfl
  rcases List.exists_cons_of_ne_nil hne with ⟨c0, t', rfl⟩
  refine ⟨?_, ?_, ?_, ?_⟩
  · intro hword hnous
    have hw0 : pyIsWordChar c0 = true := hword c0 (by simp)
    have hsp : ((c0 :: t').all pyIsSpace) = false := by
      simp [pyIsSpace_eq_false_of_word hw0]
    have halnum : ((c0 :: t').all Char.isAlphanum) = true := by
      rw [List.all_eq_true]
      intro x hx
      exact isAlphanum_of_word (hword x hx) (fun he => hnous (he ▸ hx))
    rw [hlist]
    simp [convert_token, hsp, halnum]
  · intro hword hus
    have hw0 : pyIsWordChar c0 = true := hword c0 (by simp)
    have hsp : ((c0 :: t').all pyIsSpace) = false := by
      simp [pyIsSpace_eq_false_of_word hw0]
    have halnum : ((c0 :: t').all Char.isAlphanum) = false := by
      by_contra hcon
      rw [Bool.not_eq_false, List.all_eq_true] at hcon
      exact absurd (hcon '_' hus) (by decide)
    have hpm : punct_map (c0 :: t') = c0 :: t' := by
      unfold punct_map
      rw [if_neg ?_, if_neg ?_]
      · intro he
        rw [he] at hus
        exact absurd (List.mem_singleton.1 hus) (by decide)
      · intro he
        rw [he] at hus
        exact absurd (List.mem_singleton.1 hus) (by decide)
    rw [hlist]
    simp [convert_token, hsp, halnum, hpm]
  · intro hspace
    have hsp : ((c0 :: t').all pyIsSpace) = true := List.all_eq_true.2 hspace
    rw [hlist]
    simp [convert_token, hsp]
  · intro hpunct
    have h0 := hpunct c0 (by simp)
    have hsp : ((c0 :: t').all pyIsSpace) = false := by simp [h0.2]
    have halnum : ((c0 :: t').all Char.isAlphanum) = false := by
      have hca : c0.isAlphanum = false := by
        cases hca : c0.isAlphanum
        · rfl
        · exact absurd (word_of_isAlphanum hca) (by simp [h0.1])
      simp [hca]
    rw [hlist]
    simp [convert_token, hsp, halnum]

/-- Witness for C4 (amended) at the underscore token of the phrase `_`. -/
theorem token_dispatch_amended_witness :
    (f2p_list Tmodel ['_'] 15 1)[0]? = some [(['_'], 1)] :=
  (token_dispatch_amended Tmodel ['_'] 15 1 0 ['_'] (by decide)).2.1
    (by decide) (by decide)

/-- C5 counterexample: the claim as stated is false for every parameter
choice.  With `cutoff = 0`, `f2p_word` returns an empty candidate list for a
word token, and the selection `i[0][0]` in `f2p` raises `IndexError`,
modelled as `none`. -/
theorem no_throw_cex : f2p Tmodel "ab".data 15 0 = none := by
  decide

/-- C5 (amended): for every phrase, all tables and every `max_word_size`,
whenever `cutoff ≥ 1` the pipeline `f2p` (and with it `f2p_list` and
`f2p_word`, which are total) completes and returns a phrase: the selection
of the best candidate never hits an empty candidate list. -/
theorem no_throw_amended (T : Tables) (p : List Char) (m k : Nat)
    (hk : 1 ≤ k) : (f2p T p m k).isSome = true := by
  have hall : ∀ i ∈ f2p_list T p m k, i ≠ [] := by
    intro i hi
    unfold f2p_list at hi
    rcases List.mem_map.1 hi with ⟨t, htmem, rfl⟩
    exact convert_token_ne_nil T m k hk t
      (fun h0 => nil_not_mem_tokenize p (h0 ▸ htmem))
  have hsome := firstTexts_isSome _ hall
  unfold f2p
  rcases Option.isSome_iff_exists.1 hsome with ⟨v, hv⟩
  rw [hv]
  rfl

/-- Witness for C5 (amended) at the phrase `ab` with `cutoff = 1`. -/
theorem no_throw_amended_witness :
    (f2p Tmodel "ab".data 15 1).isSome = true :=
  no_throw_amended Tmodel "ab".data 15 1 (by decide)
